import Mathlib

/-!
Verification of the log-record filtering and routing engine (flexi_logger):
shallow embedding of `src/lib.rs` — the specification-language parser
`parse_logging_spec`, the directive table and its query `ml_enabled`, the
length sort performed by `init`, the dispatch logic of `Log::log`, and the
two shipped formatters.  Rust strings are modelled as `List Char`
(a Rust `&str` is a sequence of chars; where the source uses the byte
length of the UTF-8 encoding we compute it with `Char.utf8Size`).
-/

/-- Severity of a log record (`log::LogLevel`): `Error < Warn < Info < Debug < Trace`,
numeric ranks 1..5 as in the log crate. -/
inductive LogLevel where
  | error | warn | info | debug | trace
deriving DecidableEq

/-- Numeric rank of a `LogLevel` (Error = 1 .. Trace = 5). -/
def LogLevel.toNat : LogLevel → Nat
  | .error => 1
  | .warn => 2
  | .info => 3
  | .debug => 4
  | .trace => 5

/-- Configured severity ceiling (`log::LogLevelFilter`): `Off < Error < ... < Trace`,
numeric ranks 0..5. -/
inductive LogLevelFilter where
  | off | error | warn | info | debug | trace
deriving DecidableEq

/-- Numeric rank of a `LogLevelFilter` (Off = 0 .. Trace = 5). -/
def LogLevelFilter.toNat : LogLevelFilter → Nat
  | .off => 0
  | .error => 1
  | .warn => 2
  | .info => 3
  | .debug => 4
  | .trace => 5

/-- The symbolic maximum filter, `LogLevelFilter::max()` = `Trace`. -/
def LogLevelFilter.maxFilter : LogLevelFilter := .trace

/-- The comparison `level <= directive.level` between a record severity and a
filter ceiling (the log crate compares the numeric ranks). -/
def levelLE (l : LogLevel) (f : LogLevelFilter) : Bool :=
  decide (l.toNat ≤ f.toNat)

/-- Shorthand turning a Lean string literal into the `List Char` model of a
Rust string. -/
def str (s : String) : List Char := s.data

/-- Model of Rust `str::split(c)`: always returns at least one part; `n`
occurrences of the separator yield `n + 1` parts. -/
def splitOnChar (c : Char) : List Char → List (List Char)
  | [] => [[]]
  | x :: xs =>
    if x = c then [] :: splitOnChar c xs
    else
      match splitOnChar c xs with
      | [] => [[x]]
      | h :: t => (x :: h) :: t

/-- Model of Rust `str::starts_with` (for valid UTF-8 a byte prefix at a char
boundary coincides with a char prefix). -/
def startsWithL (s pfx : List Char) : Bool := List.isPrefixOf pfx s

/-- Whitespace predicate used by `str::trim` (restricted to the ASCII
whitespace characters, which is all the parser ever meets here). -/
def isWhitespaceChar (c : Char) : Bool :=
  c = ' ' || c = '\t' || c = '\n' || c = '\r'

/-- Model of Rust `str::trim`: drop whitespace from both ends. -/
def trimL (s : List Char) : List Char :=
  ((s.dropWhile isWhitespaceChar).reverse.dropWhile isWhitespaceChar).reverse

/-- Modelled from the spec: the level-token parser (the `FromStr`
implementation for `LogLevelFilter` lives in the external log crate and is
not under `src/`).  Per the spec grammar it accepts the case-sensitive
keywords `off|error|warn|info|debug|trace` and a numeric rank. -/
def parseLevelFilter (s : List Char) : Option LogLevelFilter :=
  if s = str "off" then some .off
  else if s = str "error" then some .error
  else if s = str "warn" then some .warn
  else if s = str "info" then some .info
  else if s = str "debug" then some .debug
  else if s = str "trace" then some .trace
  else if s = str "0" then some .off
  else if s = str "1" then some .error
  else if s = str "2" then some .warn
  else if s = str "3" then some .info
  else if s = str "4" then some .debug
  else if s = str "5" then some .trace
  else none

/-- A single match directive (`struct LogDirective`): optional module-prefix
name plus a severity ceiling. -/
structure LogDirective where
  name : Option (List Char)
  level : LogLevelFilter
deriving DecidableEq

/-- One comma-segment of the spec string, as processed by the loop body of
`parse_logging_spec`: `none` means the segment contributes no directive
(empty segment, unparsable level on the right of `=`, or more than one `=`). -/
def segDirective (s : List Char) : Option LogDirective :=
  if s.length = 0 then none
  else
    match splitOnChar '=' s with
    | [part0] =>
      match parseLevelFilter part0 with
      | some num => some ⟨none, num⟩
      | none => some ⟨some part0, LogLevelFilter.maxFilter⟩
    | [part0, p1] =>
      let part1 := trimL p1
      if part1 = [] then some ⟨some part0, LogLevelFilter.maxFilter⟩
      else
        match parseLevelFilter part1 with
        | some num => some ⟨some part0, num⟩
        | none => none
    | _ => none

/-- The directive list produced from the comma-segments of the mods part. -/
def parseMods (segs : List (List Char)) : List LogDirective :=
  segs.filterMap segDirective

/-- Model of `parse_logging_spec`: split on `/`; more than two parts rejects
the whole spec with an empty directive list and no pattern.  The exclusion
pattern is returned as the raw text of the second part (its compilation by
the external regex crate is outside this core; a failed compilation only
drops the pattern, never the directives). -/
def parse_logging_spec (spec : List Char) : List LogDirective × Option (List Char) :=
  match splitOnChar '/' spec with
  | [mods] => (parseMods (splitOnChar ',' mods), none)
  | [mods, filt] => (parseMods (splitOnChar ',' mods), some filt)
  | _ => ([], none)

/-- UTF-8 byte length of a string, Rust `str::len()`. -/
def utf8Length (s : List Char) : Nat := (s.map Char.utf8Size).sum

/-- The sort key used by `init`: `d.name.as_ref().map(|a| a.len()).unwrap_or(0)` —
the byte length of the name, absent name counted as 0. -/
def LogDirective.nameLen (d : LogDirective) : Nat :=
  (d.name.map utf8Length).getD 0

/-- Insert a directive into an already sorted list, before the first entry
whose key is not smaller — the placement a stable ascending sort gives the
head of the input relative to the later elements. -/
def insertByNameLen (d : LogDirective) : List LogDirective → List LogDirective
  | [] => [d]
  | e :: es =>
    if e.nameLen < d.nameLen then e :: insertByNameLen d es
    else d :: e :: es

/-- Model of `directives.sort_by(...)` in `init`: Rust's `sort_by` is a
stable sort; insertion sort by the same key realizes exactly the stable
result (proved sorted and stable below). -/
def sortDirectives : List LogDirective → List LogDirective
  | [] => []
  | d :: ds => insertByNameLen d (sortDirectives ds)

/-- The scan inside `FlexiLogger::ml_enabled`, already oriented: the input
here is the reversed directive vector, so the head is the directive the
source visits first (`iter().rev()`). -/
def ml_enabled_scan (level : LogLevel) (target : List Char) : List LogDirective → Bool
  | [] => false
  | d :: rest =>
    match d.name with
    | some name =>
      if startsWithL target name then levelLE level d.level
      else ml_enabled_scan level target rest
    | none => levelLE level d.level

/-- Model of `FlexiLogger::ml_enabled`: walk the (pre-sorted) directive
vector from the back; the first directive whose name is absent or a prefix
of the target decides, returning `level <= directive.level`; otherwise
`false`. -/
def ml_enabled (directives : List LogDirective) (level : LogLevel) (target : List Char) : Bool :=
  ml_enabled_scan level target directives.reverse

/-- The raw directive list `init` builds before sorting: an explicit spec
wins over the `RUST_LOG` environment value (the environment lookup itself is
external, its result is a parameter here); with neither, the single default
directive `{name: None, level: Error}`. -/
def rawDirectives (loglevelspec : Option (List Char)) (rustLog : Option (List Char)) :
    List LogDirective :=
  match loglevelspec with
  | some llspec => (parse_logging_spec llspec).1
  | none =>
    match rustLog with
    | some spec => (parse_logging_spec spec).1
    | none => [⟨none, LogLevelFilter.error⟩]

/-- The directive table held by the logger after `init`: the raw list,
sorted by name length. -/
def initDirectives (loglevelspec : Option (List Char)) (rustLog : Option (List Char)) :
    List LogDirective :=
  sortDirectives (rawDirectives loglevelspec rustLog)

/-- A log record as the dispatch path and the formatters consume it: severity,
target module path, rendered message text (`record.args()`), and the location
data (`module_path`, `file`, `line`). -/
structure LogRecord where
  level : LogLevel
  target : List Char
  args : List Char
  module_path : List Char
  file : List Char
  line : Nat
deriving DecidableEq

/-- `struct LogConfig`: sink selection, console-echo switches and the
formatter capability. -/
structure LogConfig where
  log_to_file : Bool
  print_message : Bool
  duplicate_error : Bool
  duplicate_info : Bool
  format : LogRecord → List Char

/-- Responses of the external I/O environment to the write attempts a single
dispatch can make: whether the file write and the stderr write succeed. -/
structure SinkEnv where
  fileWriteOk : Bool
  stderrWriteOk : Bool
deriving DecidableEq

/-- Observable effect of one dispatch: the byte strings written to the file
sink, to standard error and to standard output (console echo), and whether
the call panicked (terminating the process). -/
structure DispatchOutcome where
  fileWrites : List (List Char)
  stderrWrites : List (List Char)
  stdoutWrites : List (List Char)
  panicked : Bool
deriving DecidableEq

/-- The silent outcome: nothing written anywhere, no panic. -/
def noOutput : DispatchOutcome := ⟨[], [], [], false⟩

/-- The exclusion test `filter.is_match(record.args().to_string())`: the
compiled regex is external, modelled as an abstract boolean matcher on the
rendered message; no filter configured means no exclusion. -/
def filterExcludes (filter : Option (List Char → Bool)) (msg : List Char) : Bool :=
  match filter with
  | some f => f msg
  | none => false

/-- Model of `Log::log for FlexiLogger`: drop disabled records; drop records
matched by the exclusion filter; otherwise format, append a newline, and
route.  In file mode the raw message is first echoed to stdout when the
duplicate switches apply, then the line is written to the locked file sink —
a failed file write panics (after the echo, before any file bytes are
observable).  In stderr mode `writeln!` appends a second newline to the
already terminated line and its failure is discarded (`let _ = ...`). -/
def logDispatch (directives : List LogDirective) (filter : Option (List Char → Bool))
    (config : LogConfig) (env : SinkEnv) (record : LogRecord) : DispatchOutcome :=
  if ¬ ml_enabled directives record.level record.target then noOutput
  else if filterExcludes filter record.args then noOutput
  else
    let msg := config.format record ++ ['\n']
    if config.log_to_file then
      let stdoutWrites :=
        if (config.duplicate_error && (record.level == LogLevel.error))
            || (config.duplicate_info && (record.level == LogLevel.info)) then
          [record.args]
        else []
      if env.fileWriteOk then ⟨[msg], [], stdoutWrites, false⟩
      else ⟨[], [], stdoutWrites, true⟩
    else
      if env.stderrWriteOk then ⟨[], [msg ++ ['\n']], [], false⟩
      else ⟨[], [], [], false⟩

/-- Display rendering of a severity, as `format!("{}", record.level())`
produces it. -/
def LogLevel.render : LogLevel → List Char
  | .error => str "ERROR"
  | .warn => str "WARN"
  | .info => str "INFO"
  | .debug => str "DEBUG"
  | .trace => str "TRACE"

/-- Decimal digit as a character. -/
def digitChar (d : Nat) : Char := Char.ofNat (48 + d)

/-- Fuel-driven decimal rendering helper. -/
def natToCharsAux : Nat → Nat → List Char
  | 0, _ => []
  | fuel + 1, n =>
    if n < 10 then [digitChar n]
    else natToCharsAux fuel (n / 10) ++ [digitChar (n % 10)]

/-- Decimal rendering of a natural number, Rust `to_string()` /
`format!("{}")` on an unsigned integer. -/
def natToChars (n : Nat) : List Char := natToCharsAux (n + 1) n

/-- Model of `default_format`:
`format!("{} [{}] {}", record.level(), record.location().module_path(), record.args())`. -/
def default_format (record : LogRecord) : List Char :=
  record.level.render ++ str " [" ++ record.module_path ++ str "] " ++ record.args

/-- Model of `String::remove(i)` (on the ASCII digit strings it is applied to,
byte index and char index coincide). -/
def removeAt (s : List Char) (i : Nat) : List Char := s.take i ++ s.drop (i + 1)

/-- The subsecond-digit manipulation of `detailed_format`:
`(1000000000 + nsec).to_string()` followed by `remove(9); remove(8);
remove(7); remove(0)`, leaving the six millisecond/microsecond digits. -/
def subsecDigits (nsec : Nat) : List Char :=
  removeAt (removeAt (removeAt (removeAt (natToChars (1000000000 + nsec)) 9) 8) 7) 0

/-- Model of `detailed_format`.  The formatter samples the clock at each
call (`time::get_time()`); the sample enters here as explicit inputs:
`timeStr` is the external `strftime("%Y-%m-%d %H:%M:%S:")` rendering of the
sampled seconds and `nsec` the sampled nanoseconds, from which the source
computes the six subsecond digits itself. -/
def detailed_format (timeStr : List Char) (nsec : Nat) (record : LogRecord) : List Char :=
  let time := timeStr ++ subsecDigits nsec
  str "[" ++ time ++ str "] " ++ record.level.render ++ str " [" ++ record.module_path
    ++ str "] " ++ record.file ++ str ":" ++ natToChars record.line ++ str ": " ++ record.args

/-- Character count of a string (not its UTF-8 byte count). -/
def charLength (s : List Char) : Nat := s.length

/-- Modelled from the spec: the sort key the spec describes for the table,
the character length of the directive name ("sorted ascending by the
character length of `name`", absent = 0) — to be compared against the byte
length key the source uses. -/
def LogDirective.charNameLen (d : LogDirective) : Nat :=
  (d.name.map charLength).getD 0

/-- Stable insertion by the spec's character-length key. -/
def insertByCharLen (d : LogDirective) : List LogDirective → List LogDirective
  | [] => [d]
  | e :: es =>
    if e.charNameLen < d.charNameLen then e :: insertByCharLen d es
    else d :: e :: es

/-- Modelled from the spec: stable ascending sort of the parsed directives by
character length of the name, as the spec words describe the table. -/
def sortByCharLenSpec : List LogDirective → List LogDirective
  | [] => []
  | d :: ds => insertByCharLen d (sortByCharLenSpec ds)

/-- The match condition of one directive in the `ml_enabled` scan: an absent
name matches everything, a present name must be a prefix of the target. -/
def dirMatches (d : LogDirective) (target : List Char) : Bool :=
  match d.name with
  | none => true
  | some name => startsWithL target name

/-- One complete output line: ends with `'\n'` and contains no earlier
newline. -/
def isLine (m : List Char) : Bool :=
  m.dropLast.all (fun c => c != '\n') && (m.getLast? == some '\n')

/-- Prepend a character to the first chunk of a chunk list. -/
def addToFirst (c : Char) : List (List Char) → List (List Char)
  | [] => [[c]]
  | l :: ls => (c :: l) :: ls

/-- Decompose a byte stream into newline-terminated chunks (a trailing
unterminated chunk, if any, is kept as a final chunk). -/
def linesOf : List Char → List (List Char)
  | [] => []
  | c :: cs => if c = '\n' then ['\n'] :: linesOf cs else addToFirst c (linesOf cs)

/-- Global state of the file-sink concurrency model: who holds the mutex
around the shared `LineWriter`, the bytes written to the file so far, each
thread's remaining messages (head = the one being or next written), and how
many bytes of the holder's current message are already out. -/
structure MState (n : Nat) where
  lock : Option (Fin n)
  buf : List Char
  rem : Fin n → List (List Char)
  prog : Nat

/-- Interleaving semantics of `Log::log` in file mode: a thread with work
left acquires the free mutex (`line_writer.lock()`), writes its current
message byte by byte while holding it, and releases only once the message is
complete (the guard drops at the end of the critical section on every exit
path).  No byte reaches the file except under the lock. -/
inductive MStep {n : Nat} : MState n → MState n → Prop
  | acquire (s : MState n) (t : Fin n) (hfree : s.lock = none) (hmore : s.rem t ≠ []) :
      MStep s ⟨some t, s.buf, s.rem, 0⟩
  | writeByte (s : MState n) (t : Fin n) (msg : List Char) (rest : List (List Char)) (c : Char)
      (hlock : s.lock = some t) (hrem : s.rem t = msg :: rest) (hc : msg[s.prog]? = some c) :
      MStep s ⟨some t, s.buf ++ [c], s.rem, s.prog + 1⟩
  | release (s : MState n) (t : Fin n) (msg : List Char) (rest : List (List Char))
      (hlock : s.lock = some t) (hrem : s.rem t = msg :: rest) (hdone : s.prog = msg.length) :
      MStep s ⟨none, s.buf, Function.update s.rem t rest, 0⟩

/-- Multiset of the messages not yet completely written. -/
def pendingMsgs {n : Nat} (s : MState n) : Multiset (List Char) :=
  ∑ t : Fin n, ((s.rem t : List (List Char)) : Multiset (List Char))

/-- The bytes of the lock holder's current message already in the file; empty
when the mutex is free. -/
def inflightOf {n : Nat} (s : MState n) : List Char :=
  match s.lock with
  | none => []
  | some t =>
    match s.rem t with
    | [] => []
    | msg :: _ => msg.take s.prog

/-- Invariant of the file-sink model: the file content is a concatenation of
completely written messages followed by the holder's partially written one,
and together the completed and pending messages account exactly for the
originally issued multiset. -/
def sinkInv {n : Nat} (msgs : Fin n → List (List Char)) (s : MState n) : Prop :=
  ∃ done : List (List Char),
    s.buf = done.flatten ++ inflightOf s ∧
    (done : Multiset (List Char)) + pendingMsgs s =
      ∑ t : Fin n, ((msgs t : List (List Char)) : Multiset (List Char))

/-- Two threads with one single-line message each, used for a concrete
complete run of the file-sink model. -/
def twoThreadMsgs : Fin 2 → List (List Char) :=
  fun t => if t.val = 0 then [['a', '\n']] else [['b', '\n']]

/-- Splitting never yields an empty part list. -/
theorem splitOnChar_ne_nil (c : Char) (s : List Char) : splitOnChar c s ≠ [] := by
  cases s with
  | nil => simp [splitOnChar]
  | cons x xs =>
    unfold splitOnChar
    by_cases h : x = c
    · simp [h]
    · rw [if_neg h]
      rcases hr : splitOnChar c xs with _ | ⟨h1, t⟩ <;> simp

/-- The number of parts is one more than the number of separators. -/
theorem splitOnChar_length (c : Char) (s : List Char) :
    (splitOnChar c s).length = s.count c + 1 := by
  induction s with
  | nil => rfl
  | cons x xs ih =>
    unfold splitOnChar
    by_cases h : x = c
    · rw [if_pos h]
      simp only [List.length_cons, List.count_cons, h, ih]
      simp
    · rw [if_neg h]
      rcases hr : splitOnChar c xs with _ | ⟨hd, t⟩
      · exact absurd hr (splitOnChar_ne_nil c xs)
      · rw [hr] at ih
        simp only [List.length_cons] at ih ⊢
        have hxc : (x == c) = false := by simp [h]
        simp [List.count_cons, hxc]
        omega

/-- A string without the separator splits into itself alone. -/
theorem splitOnChar_of_not_mem (c : Char) (s : List Char) (h : c ∉ s) :
    splitOnChar c s = [s] := by
  induction s with
  | nil => rfl
  | cons x xs ih =>
    have hx : ¬ x = c := fun hxc => h (List.mem_cons.mpr (Or.inl hxc.symm))
    have hxs : c ∉ xs := fun hc => h (List.mem_cons.mpr (Or.inr hc))
    unfold splitOnChar
    rw [if_neg hx, ih hxs]

/-- Membership after insertion by the byte-length key. -/
theorem mem_insertByNameLen {x d : LogDirective} {l : List LogDirective}
    (hx : x ∈ insertByNameLen d l) : x = d ∨ x ∈ l := by
  induction l with
  | nil => simpa [insertByNameLen] using hx
  | cons e es ih =>
    unfold insertByNameLen at hx
    by_cases hlt : e.nameLen < d.nameLen
    · rw [if_pos hlt] at hx
      rcases List.mem_cons.mp hx with h | h
      · exact Or.inr (List.mem_cons.mpr (Or.inl h))
      · rcases ih h with h1 | h1
        · exact Or.inl h1
        · exact Or.inr (List.mem_cons.mpr (Or.inr h1))
    · rw [if_neg hlt] at hx
      rcases List.mem_cons.mp hx with h | h
      · exact Or.inl h
      · exact Or.inr h

/-- Insertion preserves ascending order by the byte-length key. -/
theorem pairwise_insertByNameLen (d : LogDirective) (l : List LogDirective)
    (h : l.Pairwise (fun a b => a.nameLen ≤ b.nameLen)) :
    (insertByNameLen d l).Pairwise (fun a b => a.nameLen ≤ b.nameLen) := by
  induction l with
  | nil => simp [insertByNameLen]
  | cons e es ih =>
    rw [List.pairwise_cons] at h
    obtain ⟨he, hes⟩ := h
    unfold insertByNameLen
    by_cases hlt : e.nameLen < d.nameLen
    · rw [if_pos hlt, List.pairwise_cons]
      refine ⟨?_, ih hes⟩
      intro x hx
      rcases mem_insertByNameLen hx with h1 | h1
      · exact h1 ▸ Nat.le_of_lt hlt
      · exact he x h1
    · rw [if_neg hlt, List.pairwise_cons]
      have hde : d.nameLen ≤ e.nameLen := Nat.le_of_not_lt hlt
      refine ⟨?_, List.pairwise_cons.mpr ⟨he, hes⟩⟩
      intro x hx
      rcases List.mem_cons.mp hx with h1 | h1
      · exact h1 ▸ hde
      · exact Nat.le_trans hde (he x h1)

/-- After the whole sort the table is ascending in the byte-length key. -/
theorem pairwise_sortDirectives (l : List LogDirective) :
    (sortDirectives l).Pairwise (fun a b => a.nameLen ≤ b.nameLen) := by
  induction l with
  | nil => simp [sortDirectives]
  | cons d ds ih => exact pairwise_insertByNameLen d (sortDirectives ds) ih

/-- Stability of the insertion, expressed per key: restricted to any fixed
key value, inserting is the same as prepending. -/
theorem filter_insertByNameLen (d : LogDirective) (l : List LogDirective) (k : Nat) :
    (insertByNameLen d l).filter (fun x => x.nameLen == k) =
      (d :: l).filter (fun x => x.nameLen == k) := by
  induction l with
  | nil => rfl
  | cons e es ih =>
    unfold insertByNameLen
    by_cases hlt : e.nameLen < d.nameLen
    · rw [if_pos hlt]
      by_cases hek : e.nameLen = k <;> by_cases hdk : d.nameLen = k
      · omega
      · simp only [List.filter_cons, beq_iff_eq, hek, hdk] at ih ⊢
        simp only [ite_true, ite_false, reduceIte] at ih ⊢
        rw [ih]
      · simp only [List.filter_cons, beq_iff_eq, hek, hdk] at ih ⊢
        simp only [ite_true, ite_false, reduceIte] at ih ⊢
        rw [ih]
      · simp only [List.filter_cons, beq_iff_eq, hek, hdk] at ih ⊢
        simp only [ite_true, ite_false, reduceIte] at ih ⊢
        rw [ih]
    · rw [if_neg hlt]

/-- Stability of the whole sort: restricted to any fixed key value the sorted
table reads exactly as the input did. -/
theorem filter_sortDirectives (l : List LogDirective) (k : Nat) :
    (sortDirectives l).filter (fun x => x.nameLen == k) =
      l.filter (fun x => x.nameLen == k) := by
  induction l with
  | nil => rfl
  | cons d ds ih =>
    unfold sortDirectives
    rw [filter_insertByNameLen]
    by_cases hdk : d.nameLen = k
    · simp only [List.filter_cons, beq_iff_eq, hdk, ite_true, reduceIte]
      rw [ih]
    · simp only [List.filter_cons, beq_iff_eq, hdk, ite_false, reduceIte]
      rw [ih]

/-- C1: over any directive table the enabled query scans from the last
directive to the first and answers `level <= directive.level` at the first
directive whose name is absent or a prefix of the target; with no matching
directive — in particular over the empty table — it answers `false`.  (On
the table sorted ascending by name length this is exactly
longest-matching-prefix-wins.) -/
theorem c1_ml_enabled_scans_from_last :
    (∀ (level : LogLevel) (target : List Char), ml_enabled [] level target = false) ∧
    ∀ (dirs : List LogDirective) (d : LogDirective) (level : LogLevel) (target : List Char),
      ml_enabled (dirs ++ [d]) level target =
        if dirMatches d target then levelLE level d.level else ml_enabled dirs level target := by
  constructor
  · intro level target
    rfl
  · intro dirs d level target
    unfold ml_enabled
    rw [List.reverse_append]
    simp only [List.reverse_cons, List.reverse_nil, List.nil_append, List.singleton_append]
    cases hname : d.name with
    | none =>
      simp [ml_enabled_scan, dirMatches, hname]
    | some name =>
      simp only [ml_enabled_scan, dirMatches, hname]

/-- C10: with no explicit specification and no `RUST_LOG` value, the
installed table is the single absent-name directive at level `Error`, so for
every target exactly the `Error` records are enabled. -/
theorem c10_default_is_error_only :
    initDirectives none none = [⟨none, LogLevelFilter.error⟩] ∧
    ∀ (target : List Char) (level : LogLevel),
      ml_enabled (initDirectives none none) level target = decide (level = LogLevel.error) := by
  refine ⟨rfl, ?_⟩
  intro target level
  cases level <;> rfl

/-- C2: a specification with more than one `/` is rejected whole: the parser
returns the empty directive list and no exclusion pattern, and under that
empty table every record is disabled. -/
theorem c2_too_many_slashes_rejects_all (spec : List Char)
    (h : 2 ≤ spec.count '/') :
    parse_logging_spec spec = ([], none) ∧
    ∀ (level : LogLevel) (target : List Char),
      ml_enabled (parse_logging_spec spec).1 level target = false := by
  have hlen : 3 ≤ (splitOnChar '/' spec).length := by
    rw [splitOnChar_length]; omega
  have hmain : parse_logging_spec spec = ([], none) := by
    unfold parse_logging_spec
    rcases hs : splitOnChar '/' spec with _ | ⟨a, _ | ⟨b, _ | ⟨c, rest⟩⟩⟩
    · exact absurd hs (splitOnChar_ne_nil _ _)
    · rw [hs] at hlen; simp at hlen
    · rw [hs] at hlen; simp at hlen
    · rfl
  refine ⟨hmain, ?_⟩
  intro level target
  rw [hmain]
  rfl

/-- C2 witness: the concrete syntax-error spec `a/b/c` from the spec text. -/
theorem c2_witness :
    2 ≤ (str "a/b/c").count '/' ∧
    (parse_logging_spec (str "a/b/c") = ([], none) ∧
      ∀ (level : LogLevel) (target : List Char),
        ml_enabled (parse_logging_spec (str "a/b/c")).1 level target = false) :=
  ⟨by decide, c2_too_many_slashes_rejects_all (str "a/b/c") (by decide)⟩

/-- C3: a comma-segment `name=level` whose right-hand side (after trimming)
is nonempty but is not a level contributes no directive, while every other
comma-segment of the same specification is processed as usual: the resulting
directive list is exactly the one of the surrounding segments.  (Whether a
token is a level is decided by the externally supplied level parser,
modelled from the spec.) -/
theorem c3_invalid_level_segment_skipped (spec mods s s0 s1 : List Char)
    (pre post : List (List Char))
    (hmods : splitOnChar '/' spec = [mods])
    (hsegs : splitOnChar ',' mods = pre ++ s :: post)
    (hsplit : splitOnChar '=' s = [s0, s1])
    (hne : trimL s1 ≠ [])
    (hbad : parseLevelFilter (trimL s1) = none) :
    segDirective s = none ∧
    (parse_logging_spec spec).1 = parseMods pre ++ parseMods post := by
  have hs_ne : s ≠ [] := by
    intro h
    rw [h] at hsplit
    simp [splitOnChar] at hsplit
  have hseg : segDirective s = none := by
    unfold segDirective
    rw [if_neg (by simpa [List.length_eq_zero] using hs_ne), hsplit]
    simp only [hne, hbad, ite_false, reduceIte, if_neg hne]
  refine ⟨hseg, ?_⟩
  unfold parse_logging_spec
  rw [hmods]
  simp only []
  rw [hsegs]
  unfold parseMods
  rw [List.filterMap_append]
  simp [List.filterMap_cons, hseg]

/-- C3 witness: in `a=info,b=nolevel,c=warn` the middle segment is dropped
and the outer two survive. -/
theorem c3_witness :
    segDirective (str "b=nolevel") = none ∧
    (parse_logging_spec (str "a=info,b=nolevel,c=warn")).1 =
      parseMods [str "a=info"] ++ parseMods [str "c=warn"] :=
  c3_invalid_level_segment_skipped (str "a=info,b=nolevel,c=warn")
    (str "a=info,b=nolevel,c=warn") (str "b=nolevel") (str "b") (str "nolevel")
    [str "a=info"] [str "c=warn"]
    (by decide) (by decide) (by decide) (by decide) (by decide)

/-- C4 counterexample: the source sorts by the BYTE length of the name
(`str::len()`), not by its character length as the claim states.  In
`aa=info,é=warn` the name `é` is one character but two bytes, so the byte
sort (tie, stable: `aa` first) and the character sort (`é` strictly shorter:
`é` first) produce different tables. -/
theorem c4_counterexample :
    initDirectives (some (str "aa=info,é=warn")) none ≠
      sortByCharLenSpec (parse_logging_spec (str "aa=info,é=warn")).1 := by
  decide

/-- C4 (amended: the sort key is the byte length of the UTF-8 encoded name,
`str::len()`, not the character count; they coincide for ASCII names): the
directive table held after initialization is the parsed list stable-sorted
ascending by the byte length of the name, absent counted as 0 — ascending in
the key, and restricted to any fixed key value it reads exactly as the
parsed list did, so equal-length directives keep their relative parse
order. -/
theorem c4_table_is_stable_byte_length_sort (loglevelspec rustLog : Option (List Char)) :
    (initDirectives loglevelspec rustLog).Pairwise (fun a b => a.nameLen ≤ b.nameLen) ∧
    ∀ k : Nat,
      (initDirectives loglevelspec rustLog).filter (fun d => d.nameLen == k) =
        (rawDirectives loglevelspec rustLog).filter (fun d => d.nameLen == k) := by
  constructor
  · exact pairwise_sortDirectives (rawDirectives loglevelspec rustLog)
  · intro k
    exact filter_sortDirectives (rawDirectives loglevelspec rustLog) k

/-- C7: a bare comma-segment (nonempty, without `=`) becomes a global
absent-name directive exactly when the level parser accepts it — per the
spec-modelled parser, a case-sensitive keyword `off|error|warn|info|debug|trace`
or a numeric rank — and otherwise becomes a directive for the token itself
as a module name at the maximum level. -/
theorem c7_bare_segment (s : List Char) (hne : s ≠ []) (hnoeq : '=' ∉ s) :
    segDirective s =
      (match parseLevelFilter s with
       | some num => some ⟨none, num⟩
       | none => some ⟨some s, LogLevelFilter.maxFilter⟩) := by
  unfold segDirective
  rw [if_neg (by simpa [List.length_eq_zero] using hne), splitOnChar_of_not_mem '=' s hnoeq]

/-- C7 witness: `debug` is a case-sensitive level keyword and yields the
global directive; `Info` is not (wrong case) and yields a module directive
at the maximum level. -/
theorem c7_witness :
    segDirective (str "debug") = some ⟨none, LogLevelFilter.debug⟩ ∧
    segDirective (str "Info") = some ⟨some (str "Info"), LogLevelFilter.maxFilter⟩ := by
  have h1 := c7_bare_segment (str "debug") (by decide) (by decide)
  have h2 := c7_bare_segment (str "Info") (by decide) (by decide)
  exact ⟨by rw [h1]; rfl, by rw [h2]; rfl⟩

/-- C5: a record that the directive table enables but whose rendered message
the configured exclusion filter matches produces no output at all: nothing
reaches the file sink, standard error, or the console-echo stream, and the
call returns silently. -/
theorem c5_exclusion_suppresses_all_output (directives : List LogDirective)
    (f : List Char → Bool) (config : LogConfig) (env : SinkEnv) (record : LogRecord)
    (hen : ml_enabled directives record.level record.target = true)
    (hmatch : f record.args = true) :
    logDispatch directives (some f) config env record = noOutput := by
  unfold logDispatch
  simp [hen, filterExcludes, hmatch]

/-- C5 witness: a concrete enabled record whose message the filter matches
is dispatched to silence. -/
theorem c5_witness :
    ml_enabled [⟨none, LogLevelFilter.trace⟩] LogLevel.info (str "mymod") = true ∧
    logDispatch [⟨none, LogLevelFilter.trace⟩] (some (fun _ => true))
        ⟨true, true, true, false, fun _ => []⟩ ⟨true, true⟩
        ⟨LogLevel.info, str "mymod", str "hello", str "mymod", str "lib.rs", 1⟩ = noOutput :=
  ⟨by decide,
    c5_exclusion_suppresses_all_output _ _ _ _ _ (by decide) rfl⟩

/-- C6: in file mode a failed write of the formatted line to the file sink
panics the process (the record had to be enabled and not excluded for the
write to be attempted); without file mode the line goes to standard error
and a failure there is swallowed — no dispatch in stderr mode ever
panics. -/
theorem c6_file_write_failure_is_fatal (directives : List LogDirective)
    (filter : Option (List Char → Bool)) (config : LogConfig) (env : SinkEnv)
    (record : LogRecord) :
    (config.log_to_file = true → env.fileWriteOk = false →
      ml_enabled directives record.level record.target = true →
      filterExcludes filter record.args = false →
      (logDispatch directives filter config env record).panicked = true) ∧
    (config.log_to_file = false →
      (logDispatch directives filter config env record).panicked = false) := by
  constructor
  · intro hf hw hen hex
    simp [logDispatch, hen, hex, hf, hw]
  · intro hf
    unfold logDispatch
    by_cases hen : ml_enabled directives record.level record.target = true
    · simp only [hen, not_true, ite_false, reduceIte]
      by_cases hex : filterExcludes filter record.args = true
      · simp [hex, noOutput]
      · simp only [Bool.not_eq_true] at hex
        simp only [hex, hf]
        by_cases hse : env.stderrWriteOk = true
        · simp [hse]
        · simp only [Bool.not_eq_true] at hse
          simp [hse]
    · simp only [Bool.not_eq_true] at hen
      simp [hen, noOutput]

/-- C6 witness: a concrete failed file write panics; the same record routed
to a failing standard error stream does not. -/
theorem c6_witness :
    (logDispatch [⟨none, LogLevelFilter.trace⟩] none
        ⟨true, true, true, false, fun _ => str "line"⟩ ⟨false, true⟩
        ⟨LogLevel.warn, str "m", str "msg", str "m", str "lib.rs", 2⟩).panicked = true ∧
    (logDispatch [⟨none, LogLevelFilter.trace⟩] none
        ⟨false, true, true, false, fun _ => str "line"⟩ ⟨true, false⟩
        ⟨LogLevel.warn, str "m", str "msg", str "m", str "lib.rs", 2⟩).panicked = false :=
  ⟨(c6_file_write_failure_is_fatal _ _ _ _ _).1 rfl rfl (by decide) rfl,
    (c6_file_write_failure_is_fatal _ _ _ _ _).2 rfl⟩

/-- C8 counterexample: `detailed_format` samples the wall clock at every call
(`time::get_time()`), so its output is not a function of the record alone:
formatting the same record under two different clock samples — here two
nanosecond values within the same second, which differ only in the
subsecond digits the source computes itself — yields different strings. -/
theorem c8_counterexample :
    detailed_format (str "2015-07-08 12:12:32:") 111111111
        ⟨LogLevel.info, str "m", str "msg", str "m", str "lib.rs", 1⟩ ≠
      detailed_format (str "2015-07-08 12:12:32:") 222222222
        ⟨LogLevel.info, str "m", str "msg", str "m", str "lib.rs", 1⟩ := by
  decide

/-- C8 (amended: formatting is deterministic in its actual inputs — the
record for `default_format`, the record plus the sampled clock instant for
`detailed_format`; two applications of `detailed_format` agree whenever they
sample the same instant, but applications at different instants may
differ): both shipped formatters are pure functions of those inputs. -/
theorem c8_formatters_deterministic :
    (∀ r r' : LogRecord, r = r' → default_format r = default_format r') ∧
    (∀ (ts ts' : List Char) (ns ns' : Nat) (r r' : LogRecord),
        ts = ts' → ns = ns' → r = r' →
        detailed_format ts ns r = detailed_format ts' ns' r') := by
  constructor
  · intro r r' h
    rw [h]
  · intro ts ts' ns ns' r r' h1 h2 h3
    rw [h1, h2, h3]

/-- C8 witness: the determinism statements applied at a concrete record and
a concrete clock sample. -/
theorem c8_witness :
    default_format ⟨LogLevel.info, str "m", str "msg", str "m", str "lib.rs", 1⟩ =
      default_format ⟨LogLevel.info, str "m", str "msg", str "m", str "lib.rs", 1⟩ ∧
    detailed_format (str "2015-07-08 12:12:32:") 111111111
        ⟨LogLevel.info, str "m", str "msg", str "m", str "lib.rs", 1⟩ =
      detailed_format (str "2015-07-08 12:12:32:") 111111111
        ⟨LogLevel.info, str "m", str "msg", str "m", str "lib.rs", 1⟩ :=
  ⟨c8_formatters_deterministic.1 _ _ rfl,
    c8_formatters_deterministic.2 _ _ _ _ _ _ rfl rfl rfl⟩

/-- The sink invariant holds in the initial state. -/
theorem sinkInv_init {n : Nat} (msgs : Fin n → List (List Char)) :
    sinkInv msgs ⟨none, [], msgs, 0⟩ := by
  refine ⟨[], ?_, ?_⟩
  · rfl
  · simp [pendingMsgs]

/-- Every step of the file-sink model preserves the invariant. -/
theorem sinkInv_step {n : Nat} (msgs : Fin n → List (List Char)) (s s' : MState n)
    (hinv : sinkInv msgs s) (hstep : MStep s s') : sinkInv msgs s' := by
  obtain ⟨done, hbuf, hacc⟩ := hinv
  cases hstep with
  | acquire t hfree hmore =>
    refine ⟨done, ?_, hacc⟩
    have h1 : inflightOf s = [] := by
      simp [inflightOf, hfree]
    have h2 : inflightOf (⟨some t, s.buf, s.rem, 0⟩ : MState n) = [] := by
      simp only [inflightOf]
      cases s.rem t <;> simp
    rw [h2]
    rw [h1, List.append_nil] at hbuf
    simpa using hbuf
  | writeByte t msg rest c hlock hrem hc =>
    refine ⟨done, ?_, hacc⟩
    have h1 : inflightOf s = msg.take s.prog := by
      simp [inflightOf, hlock, hrem]
    have h2 : inflightOf (⟨some t, s.buf ++ [c], s.rem, s.prog + 1⟩ : MState n) =
        msg.take (s.prog + 1) := by
      simp [inflightOf, hrem]
    rw [h2, List.take_succ, hc]
    simp only [Option.toList_some]
    show s.buf ++ [c] = done.flatten ++ (msg.take s.prog ++ [c])
    rw [hbuf, h1, List.append_assoc]
  | release t msg rest hlock hrem hdone =>
    refine ⟨done ++ [msg], ?_, ?_⟩
    · have h1 : inflightOf s = msg := by
        simp [inflightOf, hlock, hrem, hdone]
      have h2 : inflightOf (⟨none, s.buf, Function.update s.rem t rest, 0⟩ : MState n) = [] := by
        simp [inflightOf]
      rw [h2, hbuf, h1]
      simp
    · have hS : ∑ u in Finset.univ.erase t,
          ((Function.update s.rem t rest u : List (List Char)) : Multiset (List Char)) =
          ∑ u in Finset.univ.erase t,
            ((s.rem u : List (List Char)) : Multiset (List Char)) :=
        Finset.sum_congr rfl (fun u hu => by
          rw [Function.update_noteq (Finset.ne_of_mem_erase hu)])
      have hpend2 : pendingMsgs (⟨none, s.buf, Function.update s.rem t rest, 0⟩ : MState n) =
          (rest : Multiset (List Char)) + ∑ u in Finset.univ.erase t,
            ((s.rem u : List (List Char)) : Multiset (List Char)) := by
        unfold pendingMsgs
        simp only []
        rw [← Finset.add_sum_erase Finset.univ _ (Finset.mem_univ t)]
        simp only [Function.update_same]
        rw [hS]
      have hpend : pendingMsgs s =
          (msg ::ₘ (rest : Multiset (List Char))) + ∑ u in Finset.univ.erase t,
            ((s.rem u : List (List Char)) : Multiset (List Char)) := by
        unfold pendingMsgs
        rw [← Finset.add_sum_erase Finset.univ _ (Finset.mem_univ t), hrem]
        rw [Multiset.cons_coe]
      rw [hpend2, ← hacc, hpend]
      have hcoe : ((done ++ [msg] : List (List Char)) : Multiset (List Char)) =
          (done : Multiset (List Char)) + {msg} := by
        rw [← Multiset.coe_singleton, ← Multiset.coe_add]
      rw [hcoe, ← Multiset.singleton_add]
      abel

/-- The invariant holds in every state reachable from the initial one. -/
theorem sinkInv_reach {n : Nat} (msgs : Fin n → List (List Char)) (s : MState n)
    (hreach : Relation.ReflTransGen MStep ⟨none, [], msgs, 0⟩ s) : sinkInv msgs s := by
  induction hreach with
  | refl => exact sinkInv_init msgs
  | tail _ hstep ih => exact sinkInv_step msgs _ _ ih hstep

/-- Splitting a stream that starts with a newline-free chunk followed by a
newline peels off exactly that line. -/
theorem linesOf_append_line (core rest : List Char) (h : '\n' ∉ core) :
    linesOf (core ++ '\n' :: rest) = (core ++ ['\n']) :: linesOf rest := by
  induction core with
  | nil =>
    simp [linesOf]
  | cons c core ih =>
    have hc : ¬ c = '\n' := fun hcn => h (List.mem_cons.mpr (Or.inl hcn.symm))
    have hcore : '\n' ∉ core := fun hm => h (List.mem_cons.mpr (Or.inr hm))
    rw [List.cons_append]
    show (if c = '\n' then ['\n'] :: linesOf (core ++ '\n' :: rest)
          else addToFirst c (linesOf (core ++ '\n' :: rest))) =
      ((c :: core) ++ ['\n']) :: linesOf rest
    rw [if_neg hc, ih hcore]
    simp [addToFirst]

/-- A complete line decomposes as a newline-free core plus the final
newline. -/
theorem isLine_decompose (m : List Char) (h : isLine m = true) :
    ∃ core, m = core ++ ['\n'] ∧ '\n' ∉ core := by
  unfold isLine at h
  rw [Bool.and_eq_true] at h
  obtain ⟨hall, hlast⟩ := h
  have hlast' : m.getLast? = some '\n' := by
    exact eq_of_beq hlast
  have hne : m ≠ [] := by
    intro hnil
    rw [hnil] at hlast'
    simp at hlast'
  refine ⟨m.dropLast, ?_, ?_⟩
  · have hgl : m.getLast hne = '\n' := by
      have := List.getLast?_eq_getLast m hne
      rw [this] at hlast'
      exact Option.some.inj hlast'
    rw [← hgl]
    exact (List.dropLast_append_getLast hne).symm
  · intro hmem
    have := List.all_eq_true.mp hall _ hmem
    simp at this

/-- Concatenating complete lines and splitting again recovers them
exactly. -/
theorem linesOf_flatten (ms : List (List Char)) (h : ∀ m ∈ ms, isLine m = true) :
    linesOf ms.flatten = ms := by
  induction ms with
  | nil => rfl
  | cons m ms ih =>
    obtain ⟨core, hm, hcore⟩ := isLine_decompose m (h m (List.mem_cons.mpr (Or.inl rfl)))
    have hrest : ∀ x ∈ ms, isLine x = true := fun x hx => h x (List.mem_cons.mpr (Or.inr hx))
    rw [List.flatten_cons, hm, List.append_assoc, List.singleton_append,
      linesOf_append_line core _ hcore, ih hrest]

/-- C9: in the file-sink model — every byte of a message is written while
holding the single shared mutex, acquired before the write and released only
when the message is complete — any run in which `n` threads each fully emit
their `m` single-line messages leaves a file holding exactly `n * m`
complete lines, each of which is one of the issued messages, never an
interleaving of two. -/
theorem c9_file_sink_lines_intact (n m : Nat) (msgs : Fin n → List (List Char))
    (hlen : ∀ t, (msgs t).length = m)
    (hline : ∀ t, ∀ msg ∈ msgs t, isLine msg = true)
    (s : MState n)
    (hreach : Relation.ReflTransGen MStep ⟨none, [], msgs, 0⟩ s)
    (hfinal : ∀ t, s.rem t = []) :
    (linesOf s.buf).length = n * m ∧
    ∀ l ∈ linesOf s.buf, ∃ t, l ∈ msgs t := by
  obtain ⟨done, hbuf, hacc⟩ := sinkInv_reach msgs s hreach
  have hpend0 : pendingMsgs s = 0 := by
    unfold pendingMsgs
    rw [Finset.sum_eq_zero]
    intro t ht
    rw [hfinal t]
    rfl
  have hinf : inflightOf s = [] := by
    unfold inflightOf
    cases hl : s.lock with
    | none => rfl
    | some t =>
      show (match s.rem t with
            | [] => ([] : List Char)
            | msg :: _ => msg.take s.prog) = []
      rw [hfinal t]
  rw [hpend0, add_zero] at hacc
  have hmem : ∀ l ∈ done, ∃ t, l ∈ msgs t := by
    intro l hl
    have hml : l ∈ (done : Multiset (List Char)) := by exact_mod_cast hl
    rw [hacc] at hml
    obtain ⟨t, _, hmt⟩ := (Finset.mem_sum _ _).mp hml
    exact ⟨t, by exact_mod_cast hmt⟩
  have hlinesdone : ∀ x ∈ done, isLine x = true := by
    intro x hx
    obtain ⟨t, ht⟩ := hmem x hx
    exact hline t x ht
  have hbuf2 : s.buf = done.flatten := by
    rw [hbuf, hinf, List.append_nil]
  have hlen_done : done.length = n * m := by
    have hcard := congrArg (fun M => Multiset.card M) hacc
    simp only [] at hcard
    rw [map_sum Multiset.card (fun u => ((msgs u : List (List Char)) : Multiset (List Char)))
      Finset.univ] at hcard
    simp only [Multiset.coe_card] at hcard
    have hterm : ∀ u ∈ Finset.univ, (msgs u).length = m := fun u _ => hlen u
    rw [Finset.sum_congr rfl hterm, Finset.sum_const, Finset.card_univ, Fintype.card_fin,
      smul_eq_mul] at hcard
    exact hcard
  rw [hbuf2, linesOf_flatten done hlinesdone]
  exact ⟨hlen_done, hmem⟩

/-- C9 witness: a concrete complete run in which thread 0 then thread 1 each
acquire the sink, write their single two-byte line byte by byte, and
release; the resulting file is `a\n b\n` — two intact lines. -/
theorem c9_witness :
    ∃ s : MState 2,
      Relation.ReflTransGen MStep (⟨none, [], twoThreadMsgs, 0⟩ : MState 2) s ∧
      (linesOf s.buf).length = 2 * 1 ∧
      ∀ l ∈ linesOf s.buf, ∃ t, l ∈ twoThreadMsgs t := by
  have hr : Relation.ReflTransGen MStep (⟨none, [], twoThreadMsgs, 0⟩ : MState 2)
      ⟨none, ['a', '\n', 'b', '\n'],
        Function.update (Function.update twoThreadMsgs 0 []) 1 [], 0⟩ :=
    Relation.ReflTransGen.head (MStep.acquire _ 0 rfl (by decide))
      (Relation.ReflTransGen.head (MStep.writeByte _ 0 ['a', '\n'] [] 'a' rfl (by decide) rfl)
        (Relation.ReflTransGen.head (MStep.writeByte _ 0 ['a', '\n'] [] '\n' rfl (by decide) rfl)
          (Relation.ReflTransGen.head (MStep.release _ 0 ['a', '\n'] [] rfl (by decide) rfl)
            (Relation.ReflTransGen.head (MStep.acquire _ 1 rfl (by decide))
              (Relation.ReflTransGen.head
                (MStep.writeByte _ 1 ['b', '\n'] [] 'b' rfl (by decide) rfl)
                (Relation.ReflTransGen.head
                  (MStep.writeByte _ 1 ['b', '\n'] [] '\n' rfl (by decide) rfl)
                  (Relation.ReflTransGen.head
                    (MStep.release _ 1 ['b', '\n'] [] rfl (by decide) rfl)
                    Relation.ReflTransGen.refl)))))))
  exact ⟨_, hr,
    c9_file_sink_lines_intact 2 1 twoThreadMsgs (by decide) (by decide) _ hr (by decide)⟩
